import Mathlib

/-!
Verification of the radial FSM layout core of the Verilog-FSM repository.

The definitions below are a shallow embedding of the two layout/geometry
source files:
  * the types module (`FSMState`, `FSMTransition`, `FSMData`, `NodeType`);
  * the layout module (`getDegree`, `getRadialLayoutElements`);
  * the edge-geometry module (`normalize`, `getPointOnCircle`,
    `getMultiEdgeCurvatureOffset`, the `RadialEdge` path computation).

Modelling conventions:
  * JavaScript strings are `String`, `===` is `==`/`=` on `String`.
  * A possibly-`undefined` string is `Option String`; JavaScript
    truthiness of such a value (`!hubId`, `x || y`) is modelled explicitly:
    both `undefined` and the empty string are falsy.
  * JavaScript numbers used for coordinates are real numbers `ℝ`;
    counters and indices are `Nat` (all source arithmetic on them is
    small-integer exact).
  * `Array.prototype.sort` is required by ECMAScript to be a stable sort;
    for the consistent comparator used by the source (compare by numeric
    degree) a stable sort's output is uniquely determined, so it is
    modelled by a stable insertion sort (`jsStableSort`).
  * The JavaScript `Set` `visited` is a duplicate-free `List String`
    (the source only inserts after a membership test, so the list never
    acquires duplicates and its length is the set's size).
  * JavaScript objects used as maps (`edgeGroups`, `edgeIndices`) are
    modelled as functions with default value `0` (the source guards reads
    with `|| 1` / `|| 0`, which is also modelled).
  * The `while` loop of the rim ordering is modelled with explicit fuel,
    returning `none` on fuel exhaustion; termination (claim C10) is the
    theorem that the fuel actually supplied never runs out.
  * Purely presentational output fields (stroke styles, marker, label
    background, z-index, React-Flow handle names) are omitted; all
    semantically meaningful fields are kept.
-/

namespace VerilogFSM

/-- Role flag of a state, from the types module. -/
inductive NodeType where
  | INITIAL
  | STATE
deriving DecidableEq, Repr

/-- An FSM state as described by the graph input (`FSMState` in types.ts). -/
structure FSMState where
  id : String
  label : String
  type : Option NodeType
  description : Option String
deriving DecidableEq, Repr, Inhabited

/-- A transition of the FSM (`FSMTransition` in types.ts). -/
structure FSMTransition where
  source : String
  target : String
  condition : String
  action : Option String
deriving DecidableEq, Repr, Inhabited

/-- The graph description consumed by the layout core (`FSMData`).
The layout functions read only `states` and `transitions`; the module
name and clock/reset signal names of the source type are omitted. -/
structure FSMData where
  states : List FSMState
  transitions : List FSMTransition
deriving DecidableEq, Repr

/-! ### Geometry primitives (edge-geometry module) -/

/-- Fixed body radius of a node (96 px diameter). -/
def NODE_RADIUS : ℝ := 48

/-- Vector normalization with the zero-vector fallback:
`len === 0 ? {x:0,y:0} : {x: x/len, y: y/len}`. -/
noncomputable def normalize (x y : ℝ) : ℝ × ℝ :=
  let len := Real.sqrt (x * x + y * y)
  if len = 0 then (0, 0) else (x / len, y / len)

/-- Point where the ray from a node center toward a target point exits the
node body circle (`getPointOnCircle`). -/
noncomputable def getPointOnCircle (centerX centerY targetX targetY : ℝ) : ℝ × ℝ :=
  let dx := targetX - centerX
  let dy := targetY - centerY
  let n := normalize dx dy
  (centerX + n.1 * NODE_RADIUS, centerY + n.2 * NODE_RADIUS)

/-- Signed curvature offset for parallel edges
(`getMultiEdgeCurvatureOffset`; the source default for `spacing` is 50). -/
noncomputable def getMultiEdgeCurvatureOffset (index count : ℕ) (spacing : ℝ) : ℝ :=
  if count ≤ 1 then 0
  else ((index : ℝ) - ((count : ℝ) - 1) / 2) * spacing

/-- Euclidean distance between two points, as the source computes lengths
(`Math.sqrt(dx*dx + dy*dy)`). -/
noncomputable def dist2 (p q : ℝ × ℝ) : ℝ :=
  Real.sqrt ((p.1 - q.1) * (p.1 - q.1) + (p.2 - q.2) * (p.2 - q.2))

/-- The four control points of the cubic self-loop path computed by the
`RadialEdge` component for `isSelfLoop` edges: the two on-node anchor
points and the two outward control points. -/
structure SelfLoopPath where
  start : ℝ × ℝ
  ctrl1 : ℝ × ℝ
  ctrl2 : ℝ × ℝ
  stop : ℝ × ℝ

/-- Self-loop branch of `RadialEdge`: anchors are the node direction
(from the flow origin) rotated by `±OFFSET_ANGLE` and scaled to the node
rim; control points bulge outward by `LOOP_SIZE`. -/
noncomputable def selfLoopGeometry (sourceX sourceY : ℝ) (siblingIndex : ℕ) : SelfLoopPath :=
  let n := normalize sourceX sourceY
  let nx := n.1
  let ny := n.2
  let LOOP_SIZE : ℝ := 70 + (siblingIndex : ℝ) * 15
  let OFFSET_ANGLE : ℝ := 0.6
  let cosA := Real.cos OFFSET_ANGLE
  let sinA := Real.sin OFFSET_ANGLE
  let sx := nx * cosA + ny * sinA
  let sy := -nx * sinA + ny * cosA
  let ex := nx * cosA - ny * sinA
  let ey := nx * sinA + ny * cosA
  let startX := sourceX + sx * NODE_RADIUS
  let startY := sourceY + sy * NODE_RADIUS
  let endX := sourceX + ex * NODE_RADIUS
  let endY := sourceY + ey * NODE_RADIUS
  { start := (startX, startY)
    ctrl1 := (startX + sx * LOOP_SIZE, startY + sy * LOOP_SIZE)
    ctrl2 := (endX + ex * LOOP_SIZE, endY + ey * LOOP_SIZE)
    stop := (endX, endY) }

/-- The two anchor points of the general-connection branch of `RadialEdge`:
each endpoint's rim projection toward the other endpoint. -/
noncomputable def generalAnchors (sourceX sourceY targetX targetY : ℝ) : (ℝ × ℝ) × (ℝ × ℝ) :=
  (getPointOnCircle sourceX sourceY targetX targetY,
   getPointOnCircle targetX targetY sourceX sourceY)

/-- The divisor used by the curved general-connection branch when it
computes the perpendicular normal (`len` in `nx = -dy / len`,
`ny = dx / len`): the length of the segment between the two anchor
points.  The source divides by it with no guard. -/
noncomputable def curvedNormalDivisor (sourceX sourceY targetX targetY : ℝ) : ℝ :=
  let a := generalAnchors sourceX sourceY targetX targetY
  let dx := a.2.1 - a.1.1
  let dy := a.2.2 - a.1.2
  Real.sqrt (dx * dx + dy * dy)

/-- Curved general-connection branch of `RadialEdge`: start anchor,
quadratic control point (midpoint displaced along the perpendicular
normal by the clamped arch height plus the parallel-edge offset), and
end anchor. -/
noncomputable def curvedPath (sourceX sourceY targetX targetY curvatureOffset : ℝ) :
    (ℝ × ℝ) × (ℝ × ℝ) × (ℝ × ℝ) :=
  let a := generalAnchors sourceX sourceY targetX targetY
  let mx := (a.1.1 + a.2.1) / 2
  let my := (a.1.2 + a.2.2) / 2
  let dx := a.2.1 - a.1.1
  let dy := a.2.2 - a.1.2
  let len := Real.sqrt (dx * dx + dy * dy)
  let nx := -dy / len
  let ny := dx / len
  let archHeight := min 80 (max 30 (len * 0.15)) + curvatureOffset
  (a.1, (mx + nx * archHeight, my + ny * archHeight), a.2)

/-! ### Hub selection (layout module, step 1) -/

/-- Degree of a node: number of transitions in which it appears as source
or target (`getDegree`). -/
def getDegree (nodeId : String) (transitions : List FSMTransition) : ℕ :=
  (transitions.filter fun t => t.source == nodeId || t.target == nodeId).length

/-- The reset/idle label vocabulary checked by hub selection. -/
def hubVocab : List String := ["IDLE", "RESET", "WAIT", "MAIN", "ST_IDLE"]

/-- JavaScript `toUpperCase`, modelled character by character (the
vocabulary compared against is plain ASCII). -/
def jsToUpper (s : String) : String := ⟨s.data.map Char.toUpper⟩

/-- JavaScript truthiness of a possibly-undefined string: `undefined` and
the empty string are falsy. -/
def jsTruthy : Option String → Bool
  | none => false
  | some s => !(s == "")

/-- Stable insertion of an element into a list: the element is placed
before the first entry it compares less-or-equal to. -/
def insertLe (le : α → α → Bool) (x : α) : List α → List α
  | [] => [x]
  | y :: ys => if le x y then x :: y :: ys else y :: insertLe le x ys

/-- Stable sort, modelling `Array.prototype.sort` with a consistent
comparator `cmp` (here `le a b` means `cmp a b ≤ 0`): ECMAScript requires
the sort to be stable, and for a total preorder the stable sorted output
is unique, so any compliant engine produces this list. -/
def jsStableSort (le : α → α → Bool) : List α → List α
  | [] => []
  | x :: xs => insertLe le x (jsStableSort le xs)

/-- Hub selection: first a case-insensitive label match against the
reset/idle vocabulary, otherwise the head of the list of states sorted by
descending degree.  The JavaScript `if (!hubId)` makes the fallback fire
both when no label matches and when the matching state's id is the empty
string. -/
def findHubId (fsm : FSMData) : Option String :=
  let labelHub := (fsm.states.find? fun s => hubVocab.contains (jsToUpper s.label)).map
    fun s => s.id
  if jsTruthy labelHub then labelHub
  else
    ((jsStableSort
        (fun a b =>
          decide (getDegree b.id fsm.transitions ≤ getDegree a.id fsm.transitions))
        fsm.states).head?).map fun s => s.id

/-! ### Rim ordering (layout module, step 2) -/

/-- The non-hub states, in input order (`rimNodes`).  When no hub exists
(`hubId` undefined) every state is a rim node, as in the source where
`s.id !== undefined` always holds. -/
def rimNodesOf (fsm : FSMData) (hubId : Option String) : List FSMState :=
  fsm.states.filter fun s => !(some s.id == hubId)

/-- The visited set after one loop iteration: the current id is added
when not already present (`if (!visited.has(currentId)) visited.add`). -/
def stepVisited (visited : List String) (cur : String) : List String :=
  if visited.contains cur then visited else cur :: visited

/-- The output sequence after one loop iteration: when the current id is
newly visited and names a rim node, that node is appended. -/
def stepSorted (rims : List FSMState) (visited : List String) (sorted : List FSMState)
    (cur : String) : List FSMState :=
  if visited.contains cur then sorted
  else
    match rims.find? fun n => n.id == cur with
    | some node => sorted ++ [node]
    | none => sorted

/-- The unvisited, non-hub outgoing transition targets of the current id
(the `neighbors` of the loop body), against the already-updated visited
set. -/
def nextTargets (ts : List FSMTransition) (hubId : Option String) (visited2 : List String)
    (cur : String) : List String :=
  (ts.filter fun t =>
    t.source == cur && !(visited2.contains t.target) && !(some t.target == hubId)).map
    fun t => t.target

/-- One step of the greedy chain traversal, with explicit fuel.  Each
iteration first marks the current id visited (appending the matching rim
node to the output, if any), then follows the first unvisited outgoing
transition target that is not the hub, falling back to the first
unvisited rim node, and stops when every rim node is visited (loop
guard) or no unvisited rim node remains (dead-end break). -/
def greedyLoop (ts : List FSMTransition) (hubId : Option String) (rims : List FSMState) :
    ℕ → List String → List FSMState → String → Option (List FSMState)
  | 0, _, _, _ => none
  | fuel + 1, visited, sorted, cur =>
    if visited.length < rims.length then
      match nextTargets ts hubId (stepVisited visited cur) cur with
      | next :: _ =>
        greedyLoop ts hubId rims fuel (stepVisited visited cur)
          (stepSorted rims visited sorted cur) next
      | [] =>
        match rims.find? fun n => !((stepVisited visited cur).contains n.id) with
        | some u =>
          greedyLoop ts hubId rims fuel (stepVisited visited cur)
            (stepSorted rims visited sorted cur) u.id
        | none => some (stepSorted rims visited sorted cur)
    else some sorted

/-- The seed of the greedy traversal: the first transition target leaving
the hub that names a rim node; JavaScript `||` falls back to the first
rim node `r0` when the search fails or yields the falsy empty string. -/
def rimStart (fsm : FSMData) (hubId : Option String) (rims : List FSMState)
    (r0 : FSMState) : String :=
  let startCandidates := (fsm.transitions.filter fun t =>
    some t.source == hubId && !(some t.target == hubId)).map fun t => t.target
  match startCandidates.find? fun i => rims.any fun n => n.id == i with
  | some s => if s == "" then r0.id else s
  | none => r0.id

/-- Rim ordering (`sortedRimNodes`): seed with a state the hub transitions
to, then run the greedy chain traversal.  Fuel `rims.length + 1` is
supplied; the termination theorem shows it is never exhausted. -/
def sortedRimNodesOpt (fsm : FSMData) (hubId : Option String) : Option (List FSMState) :=
  let rims := rimNodesOf fsm hubId
  match rims with
  | [] => some []
  | r0 :: _ =>
    greedyLoop fsm.transitions hubId rims (rims.length + 1) [] []
      (rimStart fsm hubId rims r0)

/-- The rim ordering actually used by the layout. -/
def sortedRimNodes (fsm : FSMData) : List FSMState :=
  (sortedRimNodesOpt fsm (findHubId fsm)).getD []

/-! ### Radial placement (layout module, step 3) -/

/-- Fixed rim radius (`const RADIUS = 380`). -/
def RADIUS : ℝ := 380

/-- A placed node of the output graph.  The hub node's data carries an
`isInitial` flag; rim node data does not (the source omits it), hence the
`Option Bool`. -/
structure LNode where
  id : String
  label : String
  description : Option String
  isInitial : Option Bool
  x : ℝ
  y : ℝ
deriving Inhabited

/-- Angle of the rim node at ring-index `index` of `n` rim nodes:
`(2π·index)/n − π/2`. -/
noncomputable def rimAngleOf (index n : ℕ) : ℝ :=
  (2 * Real.pi * (index : ℝ)) / (n : ℝ) - Real.pi / 2

/-- The hub's placed node, when a hub state exists: position `(0, 0)`. -/
def hubNode? (fsm : FSMData) (hubId : Option String) : Option LNode :=
  (fsm.states.find? fun s => some s.id == hubId).map fun s =>
    { id := s.id
      label := s.label
      description := s.description
      isInitial := some (s.type == some NodeType.INITIAL)
      x := 0
      y := 0 }

/-- The rim nodes placed on the circle of radius `RADIUS`, in ring order. -/
noncomputable def rimPlaced (rim : List FSMState) : List LNode :=
  rim.enum.map fun p =>
    let finalAngle := rimAngleOf p.1 rim.length
    { id := p.2.id
      label := p.2.label
      description := p.2.description
      isInitial := none
      x := RADIUS * Real.cos finalAngle
      y := RADIUS * Real.sin finalAngle }

/-- All placed nodes: hub first (when present), then the rim in ring
order. -/
noncomputable def layoutedNodes (fsm : FSMData) (hubId : Option String)
    (rim : List FSMState) : List LNode :=
  (hubNode? fsm hubId).toList ++ rimPlaced rim

/-! ### Edge classification (layout module, step 4) -/

/-- Grouping key of a transition (`` `${trans.source}->${trans.target}` ``). -/
def edgeKey (t : FSMTransition) : String :=
  t.source ++ "->" ++ t.target

/-- One step of the pre-processing pass that fills `edgeGroups` (key →
running count) and `edgeIndices` (transition index → rank within its key
group). -/
def mapsStep (maps : (String → ℕ) × (ℕ → ℕ)) (p : ℕ × FSMTransition) :
    (String → ℕ) × (ℕ → ℕ) :=
  let key := edgeKey p.2
  (fun k => if k == key then maps.1 key + 1 else maps.1 k,
   fun j => if j == p.1 then maps.1 key else maps.2 j)

/-- The `edgeGroups` / `edgeIndices` maps after the pre-processing pass
over all transitions.  Missing entries read as `0` (JavaScript
`undefined` guarded by `|| 1` / `|| 0` at the use sites). -/
def buildEdgeMaps (ts : List FSMTransition) : (String → ℕ) × (ℕ → ℕ) :=
  ts.enum.foldl mapsStep (fun _ => 0, fun _ => 0)

/-- A routed edge of the output graph, with the classification flags and
sibling ranks persisted in its data. -/
structure REdge where
  id : String
  source : String
  target : String
  label : String
  sourceLabel : Option String
  targetLabel : Option String
  condition : String
  action : Option String
  isHubConnection : Bool
  isSelfLoop : Bool
  isNeighbor : Bool
  hubId : Option String
  siblingCount : ℕ
  siblingIndex : ℕ
deriving DecidableEq, Repr, Inhabited

/-- Construction of the edge for transition `t` at input position `i`:
classification flags, ring adjacency, and sibling ranks
(`siblingCount = edgeGroups[key] || 1`, `siblingIndex =
edgeIndices[...] || 0`). -/
def mkRadialEdge (hubId : Option String) (sortedRim : List FSMState)
    (nodes : List LNode) (groups : String → ℕ) (indices : ℕ → ℕ)
    (i : ℕ) (t : FSMTransition) : REdge :=
  let numericLabel := toString (i + 1)
  let isSelfLoop := t.source == t.target
  let isHubConnection := some t.source == hubId || some t.target == hubId
  let isNeighbor :=
    if !isHubConnection && !isSelfLoop then
      match sortedRim.findIdx? (fun n => n.id == t.source),
            sortedRim.findIdx? (fun n => n.id == t.target) with
      | some sIdx, some tIdx =>
        let diff := ((sIdx : ℤ) - (tIdx : ℤ)).natAbs
        let len := sortedRim.length
        diff == 1 || diff == len - 1
      | _, _ => false
    else false
  let key := edgeKey t
  let siblingCount := if groups key == 0 then 1 else groups key
  let siblingIndex := indices i
  { id := "radial_" ++ toString i ++ "_" ++ t.source ++ "_" ++ t.target
    source := t.source
    target := t.target
    label := numericLabel
    sourceLabel := (nodes.find? fun n => n.id == t.source).map fun n => n.label
    targetLabel := (nodes.find? fun n => n.id == t.target).map fun n => n.label
    condition := t.condition
    action := t.action
    isHubConnection := isHubConnection
    isSelfLoop := isSelfLoop
    isNeighbor := isNeighbor
    hubId := hubId
    siblingCount := siblingCount
    siblingIndex := siblingIndex }

/-- The full placed-graph result. -/
structure RadialLayout where
  nodes : List LNode
  edges : List REdge

/-- The radial layout algorithm (`getRadialLayoutElements`): hub
selection, rim ordering, radial placement, and per-edge classification. -/
noncomputable def getRadialLayoutElements (fsm : FSMData) : RadialLayout :=
  let hubId := findHubId fsm
  let rim := (sortedRimNodesOpt fsm hubId).getD []
  let nodes := layoutedNodes fsm hubId rim
  let maps := buildEdgeMaps fsm.transitions
  let edges := fsm.transitions.enum.map fun p =>
    mkRadialEdge hubId rim nodes maps.1 maps.2 p.1 p.2
  { nodes := nodes, edges := edges }

/-! ### Spec-side auxiliary definitions

These are not transcriptions of the source; they are the notions the
claims are phrased in (first maximal element, pair groups, convenient
list access), used to compare the source functions against the
specification. -/

/-- The produced edge at input position `i` (out-of-range positions give
the default edge; every claim restricts `i` to the input range). -/
noncomputable def edgeAt (fsm : FSMData) (i : ℕ) : REdge :=
  ((getRadialLayoutElements fsm).edges).getD i default

/-- The transition at input position `i`. -/
def transAt (fsm : FSMData) (i : ℕ) : FSMTransition :=
  fsm.transitions.getD i default

/-- The first element of a list attaining the maximal value of `f`
(earlier elements win ties); the claims describe the degree fallback of
hub selection with this notion. -/
def firstMaxBy (f : α → ℕ) : List α → Option α
  | [] => none
  | x :: xs =>
    match firstMaxBy f xs with
    | none => some x
    | some m => if f m ≤ f x then some x else some m

/-- Claim-side description of the label rule of hub selection: `h` is the
id of the first state (in input order) whose uppercased label is in the
reset/idle vocabulary, and that id is non-empty. -/
def IsFirstVocabHub (fsm : FSMData) (h : String) : Prop :=
  ∃ i < fsm.states.length,
    hubVocab.contains (jsToUpper (fsm.states.getD i default).label) = true ∧
    (fsm.states.getD i default).id ≠ "" ∧
    h = (fsm.states.getD i default).id ∧
    ∀ j < i, hubVocab.contains (jsToUpper (fsm.states.getD j default).label) = false

/-- Claim-side description of the degree fallback of hub selection: `h`
is the id of the first state (in input order) of maximal degree. -/
def IsFirstMaxDegreeHub (fsm : FSMData) (h : String) : Prop :=
  ∃ i < fsm.states.length,
    h = (fsm.states.getD i default).id ∧
    (∀ x ∈ fsm.states,
      getDegree x.id fsm.transitions ≤ getDegree (fsm.states.getD i default).id fsm.transitions) ∧
    ∀ j < i,
      getDegree (fsm.states.getD j default).id fsm.transitions <
        getDegree (fsm.states.getD i default).id fsm.transitions

/-- Two transitions share the same ordered (source, target) pair — the
grouping notion of the sibling-edge claims. -/
def samePair (u t : FSMTransition) : Bool :=
  u.source == t.source && u.target == t.target

/-- Input positions of the transitions sharing `t`'s (source, target)
pair, in input order. -/
def siblingPositions (ts : List FSMTransition) (t : FSMTransition) : List ℕ :=
  (ts.enum.filter fun p => samePair p.2 t).map Prod.fst

/-! ### Concrete inputs used by witnesses and counterexamples -/

/-- Shorthand state constructor for concrete inputs. -/
def mkS (i l : String) : FSMState := ⟨i, l, none, none⟩

/-- Shorthand transition constructor for concrete inputs. -/
def mkT (s t : String) : FSMTransition := ⟨s, t, "c", none⟩

/-- Scenario A of the spec: `IDLE` hub by label, ring `[RUN, DONE]`. -/
def sampleA : FSMData :=
  ⟨[mkS "i" "idle", mkS "r" "RUN", mkS "d" "DONE"],
   [mkT "i" "r", mkT "r" "d", mkT "d" "i"]⟩

/-- Scenario B of the spec: no label match, degrees A:1, B:3, C:2. -/
def sampleB : FSMData :=
  ⟨[mkS "A" "a", mkS "B" "b", mkS "C" "c"],
   [mkT "A" "B", mkT "B" "C", mkT "C" "B"]⟩

/-- A first vocabulary match whose id is the empty string: the JavaScript
`if (!hubId)` treats it as missing and falls through to the degree
fallback. -/
def sampleEmptyId : FSMData :=
  ⟨[mkS "" "IDLE", mkS "b" "B"], [mkT "b" "b"]⟩

/-- A transition whose target id `x` names no state: the greedy loop
counts it as visited and exits before reaching rim state `b`. -/
def sampleDangling : FSMData :=
  ⟨[mkS "h" "IDLE", mkS "a" "A", mkS "b" "B"], [mkT "a" "x"]⟩

/-- A single state with a self-transition: the hub itself carries the
self-loop, and the hub sits at the origin. -/
def sampleHubLoop : FSMData :=
  ⟨[⟨"s", "IDLE", none, none⟩], [mkT "s" "s"]⟩

/-- Two transitions with different (source, target) pairs whose
concatenated grouping keys collide: `"a->b" → "c"` and `"a" → "b->c"`
both produce the key `"a->b->c"`. -/
def sampleCollide : FSMData :=
  ⟨[mkS "h" "IDLE", mkS "a->b" "P", mkS "c" "Q", mkS "a" "R", mkS "b->c" "S"],
   [mkT "a->b" "c", mkT "a" "b->c"]⟩

/-- Scenario C of the spec: three parallel `A → B` transitions. -/
def sampleParallel : FSMData :=
  ⟨[mkS "A" "a", mkS "B" "b"],
   [mkT "A" "B", mkT "A" "B", mkT "A" "B"]⟩

/-- A hub with a four-state ring, with neighbor, non-neighbor and
wraparound rim transitions. -/
def sampleRing : FSMData :=
  ⟨[mkS "h" "IDLE", mkS "a" "A", mkS "b" "B", mkS "c" "C", mkS "d" "D"],
   [mkT "h" "a", mkT "a" "b", mkT "b" "c", mkT "c" "d", mkT "a" "c", mkT "d" "a"]⟩

/-- The empty graph description. -/
def sampleEmpty : FSMData := ⟨[], []⟩

/-- A single state (no vocabulary label) and no transitions. -/
def sampleSingle : FSMData := ⟨[⟨"s", "FOO", none, none⟩], []⟩

/-! ## Helper lemmas -/

theorem getD_eq_get (l : List α) (i : ℕ) (d : α) (h : i < l.length) :
    l.getD i d = l.get ⟨i, h⟩ := by
  simp [List.getD_eq_getElem?_getD, List.getElem?_eq_getElem h]

theorem firstMaxBy_cons (f : α → ℕ) (x : α) (xs : List α) :
    firstMaxBy f (x :: xs) =
      match firstMaxBy f xs with
      | none => some x
      | some m => if f m ≤ f x then some x else some m := rfl

theorem firstMaxBy_eq_none_iff (f : α → ℕ) (l : List α) :
    firstMaxBy f l = none ↔ l = [] := by
  cases l with
  | nil => simp [firstMaxBy]
  | cons x xs =>
    rw [firstMaxBy_cons]
    cases firstMaxBy f xs with
    | none => simp
    | some m =>
      dsimp only
      constructor
      · intro h
        by_cases hle : f m ≤ f x <;> simp [hle] at h
      · intro h
        exact absurd h (List.cons_ne_nil x xs)

theorem firstMaxBy_isSome (f : α → ℕ) (l : List α) (h : l ≠ []) :
    (firstMaxBy f l).isSome := by
  cases hl : firstMaxBy f l with
  | some m => rfl
  | none => exact absurd ((firstMaxBy_eq_none_iff f l).mp hl) h

theorem jsStableSort_head? (f : α → ℕ) (l : List α) :
    (jsStableSort (fun a b => decide (f b ≤ f a)) l).head? = firstMaxBy f l := by
  induction l with
  | nil => rfl
  | cons x xs ih =>
    rw [show jsStableSort (fun a b => decide (f b ≤ f a)) (x :: xs) =
          insertLe (fun a b => decide (f b ≤ f a)) x
            (jsStableSort (fun a b => decide (f b ≤ f a)) xs) from rfl,
        firstMaxBy_cons, ← ih]
    cases h : jsStableSort (fun a b => decide (f b ≤ f a)) xs with
    | nil => simp [insertLe]
    | cons y ys =>
      simp only [insertLe, List.head?_cons]
      by_cases hle : f y ≤ f x
      · simp [hle]
      · simp [hle]

theorem firstMaxBy_spec (f : α → ℕ) (l : List α) (m : α) (h : firstMaxBy f l = some m) :
    ∃ i, ∃ hi : i < l.length, l.get ⟨i, hi⟩ = m ∧ (∀ x ∈ l, f x ≤ f m) ∧
      ∀ j (hj : j < i), f (l.get ⟨j, hj.trans hi⟩) < f m := by
  induction l generalizing m with
  | nil => simp [firstMaxBy] at h
  | cons x xs ih =>
    rw [firstMaxBy_cons] at h
    cases hx : firstMaxBy f xs with
    | none =>
      rw [hx] at h
      dsimp only at h
      obtain rfl : x = m := by injection h
      have hxs : xs = [] := (firstMaxBy_eq_none_iff f xs).mp hx
      subst hxs
      refine ⟨0, by simp, rfl, ?_, by omega⟩
      intro z hz
      obtain rfl : z = x := by simpa using hz
      exact le_refl _
    | some mx =>
      rw [hx] at h
      dsimp only at h
      by_cases hle : f mx ≤ f x
      · rw [if_pos hle] at h
        obtain rfl : x = m := by injection h
        obtain ⟨i, hi, hget, hmax, hpre⟩ := ih mx hx
        refine ⟨0, by simp, rfl, ?_, by omega⟩
        intro z hz
        rcases List.mem_cons.mp hz with rfl | hz
        · exact le_refl _
        · exact (hmax z hz).trans hle
      · rw [if_neg hle] at h
        obtain rfl : mx = m := by injection h
        obtain ⟨i, hi, hget, hmax, hpre⟩ := ih mx hx
        refine ⟨i + 1, by simpa using Nat.succ_lt_succ hi, hget, ?_, ?_⟩
        · intro z hz
          rcases List.mem_cons.mp hz with rfl | hz
          · exact (Nat.lt_of_not_le hle).le
          · exact hmax z hz
        · intro j hj
          cases j with
          | zero => exact Nat.lt_of_not_le hle
          | succ j => exact hpre j (by omega)

theorem find?_spec_index (p : α → Bool) (l : List α) (a : α) (h : l.find? p = some a) :
    ∃ i, ∃ hi : i < l.length, l.get ⟨i, hi⟩ = a ∧ p a = true ∧
      ∀ j (hj : j < i), p (l.get ⟨j, hj.trans hi⟩) = false := by
  induction l with
  | nil => simp at h
  | cons x xs ih =>
    cases hp : p x with
    | true =>
      rw [List.find?_cons_of_pos _ hp] at h
      obtain rfl : x = a := by injection h
      exact ⟨0, by simp, rfl, hp, by omega⟩
    | false =>
      rw [List.find?_cons_of_neg _ (by simp [hp])] at h
      obtain ⟨i, hi, hget, hpa, hpre⟩ := ih h
      refine ⟨i + 1, by simpa using Nat.succ_lt_succ hi, hget, hpa, ?_⟩
      intro j hj
      cases j with
      | zero => exact hp
      | succ j => exact hpre j (by omega)

/-! ## C1: hub designation -/

/-- C1 (amended).  For a non-empty state list, `getRadialLayoutElements`
designates exactly one hub id: the first state whose label
case-insensitively matches the reset/idle vocabulary provided that
state's id is non-empty (the JavaScript falsy check `if (!hubId)`
discards an empty-string id); otherwise the first state of maximal
degree in input order. -/
theorem hub_selection_spec (fsm : FSMData) (hne : fsm.states ≠ []) :
    ∃ h, findHubId fsm = some h ∧
      (IsFirstVocabHub fsm h ∨
        ((∀ s', fsm.states.find? (fun s => hubVocab.contains (jsToUpper s.label)) = some s' →
            s'.id = "") ∧
          IsFirstMaxDegreeHub fsm h)) := by
  have hfallback :
      ∀ hmax : String → Prop,
        (∀ m, firstMaxBy (fun s => getDegree s.id fsm.transitions) fsm.states = some m →
          hmax m.id) →
        ∃ h, ((jsStableSort
            (fun a b => decide (getDegree b.id fsm.transitions ≤ getDegree a.id fsm.transitions))
            fsm.states).head?).map (fun s => s.id) = some h ∧ hmax h := by
    intro hmax hm
    obtain ⟨m, hsome⟩ := Option.isSome_iff_exists.mp
      (firstMaxBy_isSome (fun s => getDegree s.id fsm.transitions) fsm.states hne)
    refine ⟨m.id, ?_, hm m hsome⟩
    rw [jsStableSort_head? (fun s => getDegree s.id fsm.transitions) fsm.states, hsome]
    rfl
  have hmaxspec :
      ∀ m, firstMaxBy (fun s => getDegree s.id fsm.transitions) fsm.states = some m →
        IsFirstMaxDegreeHub fsm m.id := by
    intro m hm
    obtain ⟨i, hi, hget, hmax, hpre⟩ :=
      firstMaxBy_spec (fun s => getDegree s.id fsm.transitions) fsm.states m hm
    refine ⟨i, hi, ?_, ?_, ?_⟩
    · rw [getD_eq_get fsm.states i default hi, hget]
    · intro x hx
      rw [getD_eq_get fsm.states i default hi, hget]
      exact hmax x hx
    · intro j hj
      rw [getD_eq_get fsm.states i default hi, hget,
        getD_eq_get fsm.states j default (hj.trans hi)]
      exact hpre j hj
  rw [findHubId]
  cases hf : fsm.states.find? fun s => hubVocab.contains (jsToUpper s.label) with
  | some s =>
    simp only [Option.map_some']
    by_cases hid : s.id = ""
    · have ht : jsTruthy (some s.id) = false := by simp [jsTruthy, hid]
      rw [ht]
      simp only [Bool.false_eq_true, if_false]
      obtain ⟨h, hh, hm⟩ := hfallback (IsFirstMaxDegreeHub fsm) hmaxspec
      refine ⟨h, hh, Or.inr ⟨?_, hm⟩⟩
      intro s' hs'
      obtain rfl : s = s' := by injection hs'
      exact hid
    · have ht : jsTruthy (some s.id) = true := by simp [jsTruthy, hid]
      rw [ht]
      simp only [if_true]
      refine ⟨s.id, rfl, Or.inl ?_⟩
      obtain ⟨i, hi, hget, hpa, hpre⟩ :=
        find?_spec_index (fun s => hubVocab.contains (jsToUpper s.label)) fsm.states s hf
      refine ⟨i, hi, ?_, ?_, ?_, ?_⟩
      · rw [getD_eq_get fsm.states i default hi, hget]; exact hpa
      · rw [getD_eq_get fsm.states i default hi, hget]; exact hid
      · rw [getD_eq_get fsm.states i default hi, hget]
      · intro j hj
        rw [getD_eq_get fsm.states j default (hj.trans hi)]
        exact hpre j hj
  | none =>
    simp only [Option.map_none']
    have ht : jsTruthy none = false := rfl
    rw [ht]
    simp only [Bool.false_eq_true, if_false]
    obtain ⟨h, hh, hm⟩ := hfallback (IsFirstMaxDegreeHub fsm) hmaxspec
    refine ⟨h, hh, Or.inr ⟨?_, hm⟩⟩
    intro s' hs'
    exact absurd hs' (by simp)

/-- C1 counterexample.  In `sampleEmptyId` a state whose label matches
the reset/idle vocabulary exists (the `IDLE` state, id `""`), yet the
designated hub is `"b"`, which is not the id of any vocabulary-matching
state: the claim's label rule fails as stated because the JavaScript
`if (!hubId)` treats the empty-string id as missing. -/
theorem hub_selection_counterexample :
    findHubId sampleEmptyId = some "b" ∧
    (∃ s ∈ sampleEmptyId.states, hubVocab.contains (jsToUpper s.label) = true) ∧
    (∀ s ∈ sampleEmptyId.states,
      hubVocab.contains (jsToUpper s.label) = true → s.id ≠ "b") := by
  decide

/-- Witness for C1 at Scenario B (no label match; `B` has maximal
degree). -/
theorem hub_selection_witness :
    sampleB.states ≠ [] ∧
    (∃ h, findHubId sampleB = some h ∧
      (IsFirstVocabHub sampleB h ∨
        ((∀ s', sampleB.states.find? (fun s => hubVocab.contains (jsToUpper s.label)) = some s' →
            s'.id = "") ∧
          IsFirstMaxDegreeHub sampleB h))) :=
  ⟨by decide, hub_selection_spec sampleB (by decide)⟩

/-! ## C4: determinism -/

/-- C4.  The layout is a pure function of its input: two invocations on
equal inputs select the same hub, the same rim ordering, and produce
equal placed-graphs (positions, flags and sibling ranks included). -/
theorem layout_deterministic (d1 d2 : FSMData) (h : d1 = d2) :
    findHubId d1 = findHubId d2 ∧ sortedRimNodes d1 = sortedRimNodes d2 ∧
      getRadialLayoutElements d1 = getRadialLayoutElements d2 := by
  subst h
  exact ⟨rfl, rfl, rfl⟩

/-- Witness for C4 at Scenario A. -/
theorem layout_deterministic_witness :
    sampleA = sampleA ∧
    (findHubId sampleA = findHubId sampleA ∧
      sortedRimNodes sampleA = sortedRimNodes sampleA ∧
      getRadialLayoutElements sampleA = getRadialLayoutElements sampleA) :=
  ⟨rfl, layout_deterministic sampleA sampleA rfl⟩

/-! ## C10: termination of the greedy chain traversal -/

theorem not_mem_of_contains_false {l : List String} {x : String}
    (h : l.contains x = false) : x ∉ l := by
  simpa using h

theorem contains_false_of_not_mem {l : List String} {x : String}
    (h : x ∉ l) : l.contains x = false := by
  simpa using h

theorem stepVisited_of_not_mem {visited : List String} {cur : String} (h : cur ∉ visited) :
    stepVisited visited cur = cur :: visited := by
  rw [stepVisited, contains_false_of_not_mem h]
  rfl

theorem mem_nextTargets_not_mem (ts : List FSMTransition) (hub : Option String)
    (v2 : List String) (cur x : String) (h : x ∈ nextTargets ts hub v2 cur) : x ∉ v2 := by
  simp only [nextTargets, List.mem_map, List.mem_filter] at h
  obtain ⟨t, ⟨-, hpred⟩, rfl⟩ := h
  simp only [Bool.and_eq_true, Bool.not_eq_true'] at hpred
  exact not_mem_of_contains_false hpred.1.2

theorem greedyLoop_isSome (ts : List FSMTransition) (hub : Option String)
    (rims : List FSMState) :
    ∀ (fuel : ℕ) (visited : List String) (sorted : List FSMState) (cur : String),
      cur ∉ visited → rims.length - visited.length < fuel →
      (greedyLoop ts hub rims fuel visited sorted cur).isSome := by
  intro fuel
  induction fuel with
  | zero =>
    intro visited sorted cur hcur hlt
    omega
  | succ fuel ih =>
    intro visited sorted cur hcur hlt
    rw [greedyLoop]
    by_cases hguard : visited.length < rims.length
    · rw [if_pos hguard]
      have hv2 : stepVisited visited cur = cur :: visited := stepVisited_of_not_mem hcur
      cases hnext : nextTargets ts hub (stepVisited visited cur) cur with
      | cons next rest =>
        apply ih
        · exact mem_nextTargets_not_mem ts hub _ cur next (hnext ▸ List.mem_cons_self next rest)
        · rw [hv2]
          simp only [List.length_cons]
          omega
      | nil =>
        cases hfind : rims.find? fun n => !((stepVisited visited cur).contains n.id) with
        | some u =>
          apply ih
          · exact not_mem_of_contains_false (by simpa using List.find?_some hfind)
          · rw [hv2]
            simp only [List.length_cons]
            omega
        | none => rfl
    · rw [if_neg hguard]
      rfl

theorem sortedRimNodesOpt_isSome (fsm : FSMData) (hub : Option String) :
    (sortedRimNodesOpt fsm hub).isSome := by
  rw [sortedRimNodesOpt]
  cases hr : rimNodesOf fsm hub with
  | nil => rfl
  | cons r0 rest =>
    apply greedyLoop_isSome
    · exact List.not_mem_nil _
    · simp

/-- C10.  The greedy chain-traversal loop terminates on every input,
dangling transition targets included: the supplied fuel is never
exhausted, so the rim ordering (and with it the whole layout) is a total
function of the graph description. -/
theorem rim_ordering_total (fsm : FSMData) :
    ∃ l, sortedRimNodesOpt fsm (findHubId fsm) = some l ∧ sortedRimNodes fsm = l := by
  obtain ⟨l, hl⟩ :=
    Option.isSome_iff_exists.mp (sortedRimNodesOpt_isSome fsm (findHubId fsm))
  refine ⟨l, hl, ?_⟩
  rw [sortedRimNodes, hl]
  rfl

/-! ## C2: rim ordering is a permutation of the non-hub states -/

theorem filter_stepVisited_perm (rims : List FSMState) (visited : List String)
    (cur : String) (node : FSMState)
    (hnd : (rims.map FSMState.id).Nodup)
    (hcur : cur ∉ visited)
    (hfind : rims.find? (fun n => n.id == cur) = some node) :
    (rims.filter fun n => (cur :: visited).contains n.id).Perm
      ((rims.filter fun n => visited.contains n.id) ++ [node]) := by
  induction rims with
  | nil => simp at hfind
  | cons y ys ih =>
    rw [List.map_cons, List.nodup_cons] at hnd
    by_cases hy : y.id = cur
    · obtain rfl : y = node := by
        rw [List.find?_cons_of_pos _ (by simp [hy])] at hfind
        injection hfind
      have hyv : visited.contains y.id = false :=
        contains_false_of_not_mem (by rw [hy]; exact hcur)
      have hyc : (cur :: visited).contains y.id = true := by simp [hy]
      rw [List.filter_cons, List.filter_cons, hyv, hyc]
      simp only [if_true, Bool.false_eq_true, if_false]
      have hys : ∀ n ∈ ys, n.id ≠ cur := by
        intro n hn hco
        exact hnd.1 (hy ▸ hco ▸ List.mem_map_of_mem FSMState.id hn)
      have htail : (ys.filter fun n => (cur :: visited).contains n.id)
          = ys.filter fun n => visited.contains n.id :=
        List.filter_congr fun n hn => by simp [List.contains_cons, hys n hn]
      rw [htail]
      exact (List.perm_append_singleton y _).symm
    · have hfind' : ys.find? (fun n => n.id == cur) = some node := by
        rwa [List.find?_cons_of_neg _ (by simp [hy])] at hfind
      have hhead : ((cur :: visited).contains y.id) = (visited.contains y.id) := by
        simp [List.contains_cons, hy]
      rw [List.filter_cons, List.filter_cons, hhead]
      cases hv : visited.contains y.id with
      | true => simpa using (ih hnd.2 hfind').cons y
      | false => simpa using ih hnd.2 hfind'

theorem mem_nextTargets_props (ts : List FSMTransition) (hub : Option String)
    (v2 : List String) (cur x : String) (h : x ∈ nextTargets ts hub v2 cur) :
    ∃ t ∈ ts, t.target = x ∧ (some t.target == hub) = false := by
  simp only [nextTargets, List.mem_map, List.mem_filter] at h
  obtain ⟨t, ⟨ht, hpred⟩, rfl⟩ := h
  simp only [Bool.and_eq_true, Bool.not_eq_true'] at hpred
  exact ⟨t, ht, rfl, hpred.2⟩

theorem rimStart_mem (fsm : FSMData) (hub : Option String) (rims : List FSMState)
    (r0 : FSMState) (hr0 : r0 ∈ rims) :
    rimStart fsm hub rims r0 ∈ rims.map FSMState.id := by
  rw [rimStart]
  cases hfo : ((fsm.transitions.filter fun t =>
      some t.source == hub && !(some t.target == hub)).map fun t => t.target).find?
      (fun i => rims.any fun n => n.id == i) with
  | none => exact List.mem_map_of_mem FSMState.id hr0
  | some s =>
    dsimp only
    by_cases hs : s == ""
    · rw [if_pos hs]
      exact List.mem_map_of_mem FSMState.id hr0
    · rw [if_neg hs]
      have hany := List.find?_some hfo
      rw [List.any_eq_true] at hany
      obtain ⟨n, hn, hns⟩ := hany
      rw [beq_iff_eq] at hns
      exact hns ▸ List.mem_map_of_mem FSMState.id hn

theorem greedyLoop_perm (ts : List FSMTransition) (hub : Option String)
    (rims : List FSMState)
    (hnd : (rims.map FSMState.id).Nodup)
    (hwf : ∀ t ∈ ts, (some t.target == hub) = false → t.target ∈ rims.map FSMState.id) :
    ∀ (fuel : ℕ) (visited : List String) (sorted : List FSMState) (cur : String)
      (res : List FSMState),
      greedyLoop ts hub rims fuel visited sorted cur = some res →
      cur ∈ rims.map FSMState.id → cur ∉ visited → visited.Nodup →
      (∀ v ∈ visited, v ∈ rims.map FSMState.id) →
      sorted.Perm (rims.filter fun n => visited.contains n.id) →
      res.Perm rims := by
  intro fuel
  induction fuel with
  | zero =>
    intro visited sorted cur res hres
    rw [greedyLoop] at hres
    exact absurd hres (by simp)
  | succ fuel ih =>
    intro visited sorted cur res hres hcurmem hcur hvnd hvsub hperm
    rw [greedyLoop] at hres
    by_cases hguard : visited.length < rims.length
    case neg =>
      rw [if_neg hguard] at hres
      obtain rfl : sorted = res := by injection hres
      have hall : ∀ n ∈ rims, visited.contains n.id = true := by
        have hsub : List.Subperm visited (rims.map FSMState.id) :=
          List.subperm_of_subset hvnd hvsub
        have hlen : (rims.map FSMState.id).length ≤ visited.length := by
          simpa using Nat.le_of_not_lt hguard
        have hp : visited.Perm (rims.map FSMState.id) := hsub.perm_of_length_le hlen
        intro n hn
        have : n.id ∈ visited := hp.symm.subset (List.mem_map_of_mem FSMState.id hn)
        simpa using this
      have hfe : rims.filter (fun n => visited.contains n.id) = rims :=
        List.filter_eq_self.mpr hall
      rw [hfe] at hperm
      exact hperm
    case pos =>
      rw [if_pos hguard] at hres
      have hv2 : stepVisited visited cur = cur :: visited := stepVisited_of_not_mem hcur
      have hfindsome : (rims.find? fun n => n.id == cur).isSome := by
        rw [List.find?_isSome]
        obtain ⟨n, hn, hid⟩ := List.mem_map.mp hcurmem
        exact ⟨n, hn, by simp [hid]⟩
      obtain ⟨node, hnode⟩ := Option.isSome_iff_exists.mp hfindsome
      have hsorted2 : stepSorted rims visited sorted cur = sorted ++ [node] := by
        rw [stepSorted, contains_false_of_not_mem hcur]
        simp only [Bool.false_eq_true, if_false]
        rw [hnode]
      have hperm2 : (stepSorted rims visited sorted cur).Perm
          (rims.filter fun n => (stepVisited visited cur).contains n.id) := by
        rw [hsorted2, hv2]
        exact (hperm.append_right [node]).trans
          (filter_stepVisited_perm rims visited cur node hnd hcur hnode).symm
      have hvnd2 : (stepVisited visited cur).Nodup := by
        rw [hv2]
        exact List.nodup_cons.mpr ⟨hcur, hvnd⟩
      have hvsub2 : ∀ v ∈ stepVisited visited cur, v ∈ rims.map FSMState.id := by
        rw [hv2]
        intro v hv
        rcases List.mem_cons.mp hv with rfl | hv
        · exact hcurmem
        · exact hvsub v hv
      cases hnext : nextTargets ts hub (stepVisited visited cur) cur with
      | cons next rest =>
        rw [hnext] at hres
        have hmem : next ∈ nextTargets ts hub (stepVisited visited cur) cur :=
          hnext ▸ List.mem_cons_self next rest
        obtain ⟨t, ht, htt, hthub⟩ :=
          mem_nextTargets_props ts hub (stepVisited visited cur) cur next hmem
        exact ih (stepVisited visited cur) (stepSorted rims visited sorted cur) next res hres
          (htt ▸ hwf t ht hthub)
          (mem_nextTargets_not_mem ts hub _ cur next hmem)
          hvnd2 hvsub2 hperm2
      | nil =>
        rw [hnext] at hres
        cases hfindu : rims.find? fun n => !((stepVisited visited cur).contains n.id) with
        | some u =>
          rw [hfindu] at hres
          exact ih (stepVisited visited cur) (stepSorted rims visited sorted cur) u.id res hres
            (List.mem_map_of_mem FSMState.id (List.mem_of_find?_eq_some hfindu))
            (not_mem_of_contains_false (by simpa using List.find?_some hfindu))
            hvnd2 hvsub2 hperm2
        | none =>
          rw [hfindu] at hres
          obtain rfl : stepSorted rims visited sorted cur = res := by injection hres
          have hall : ∀ n ∈ rims, (stepVisited visited cur).contains n.id = true := by
            intro n hn
            have := List.find?_eq_none.mp hfindu n hn
            simpa using this
          have hfe : rims.filter (fun n => (stepVisited visited cur).contains n.id) = rims :=
            List.filter_eq_self.mpr hall
          rw [hfe] at hperm2
          exact hperm2

/-- C2 (amended).  For every input with pairwise-distinct state ids and
referentially-intact transition targets, the rim ordering is a
permutation of exactly the non-hub states: every non-hub state appears
exactly once, with no duplicates and no omissions. -/
theorem rim_ordering_perm (fsm : FSMData)
    (hnd : (fsm.states.map FSMState.id).Nodup)
    (hwf : ∀ t ∈ fsm.transitions, t.target ∈ fsm.states.map FSMState.id) :
    (sortedRimNodes fsm).Perm (rimNodesOf fsm (findHubId fsm)) := by
  obtain ⟨l, hl⟩ :=
    Option.isSome_iff_exists.mp (sortedRimNodesOpt_isSome fsm (findHubId fsm))
  rw [sortedRimNodes, hl, Option.getD_some]
  have hndr : ((rimNodesOf fsm (findHubId fsm)).map FSMState.id).Nodup :=
    ((List.filter_sublist fsm.states).map FSMState.id).nodup hnd
  have hwfr : ∀ t ∈ fsm.transitions, (some t.target == findHubId fsm) = false →
      t.target ∈ (rimNodesOf fsm (findHubId fsm)).map FSMState.id := by
    intro t ht hhub
    obtain ⟨s, hs, hsid⟩ := List.mem_map.mp (hwf t ht)
    refine List.mem_map.mpr ⟨s, ?_, hsid⟩
    rw [rimNodesOf, List.mem_filter]
    refine ⟨hs, ?_⟩
    rw [hsid]
    simp [hhub]
  rw [sortedRimNodesOpt] at hl
  cases hr : rimNodesOf fsm (findHubId fsm) with
  | nil =>
    rw [hr] at hl
    obtain rfl : ([] : List FSMState) = l := by injection hl
    exact List.Perm.refl []
  | cons r0 rest =>
    rw [hr] at hl hndr hwfr
    refine greedyLoop_perm fsm.transitions (findHubId fsm) (r0 :: rest)
      hndr hwfr _ [] [] _ l hl ?_ (List.not_mem_nil _) List.nodup_nil (by simp) ?_
    · exact rimStart_mem fsm (findHubId fsm) (r0 :: rest) r0 (List.mem_cons_self r0 rest)
    · have hfil : (r0 :: rest).filter (fun n => List.contains ([] : List String) n.id) = [] := by
        simp [List.filter_eq_nil_iff]
      rw [hfil]

/-- C2 counterexample.  With a transition whose target names no state
(`a → x` in `sampleDangling`), the dangling id is counted in the visited
set, the loop guard `visited.size < rimNodes.length` is met early, and
rim state `b` is omitted: the output is not a permutation of the non-hub
states. -/
theorem rim_ordering_counterexample :
    ¬ (sortedRimNodes sampleDangling).Perm
      (rimNodesOf sampleDangling (findHubId sampleDangling)) := by
  decide

/-- Witness for C2 at Scenario A. -/
theorem rim_ordering_witness :
    (sampleA.states.map FSMState.id).Nodup ∧
    (∀ t ∈ sampleA.transitions, t.target ∈ sampleA.states.map FSMState.id) ∧
    (sortedRimNodes sampleA).Perm (rimNodesOf sampleA (findHubId sampleA)) :=
  ⟨by decide, by decide, rim_ordering_perm sampleA (by decide) (by decide)⟩

/-! ## C8: degenerate inputs -/

/-- C8.  On degenerate input the layout does not fail: the empty graph
yields an empty placed-graph, and a single state with no transitions
yields that state as hub at the origin, an empty rim ordering, and no
edges. -/
theorem degenerate_input_spec :
    (∀ fsm : FSMData, fsm.states = [] → fsm.transitions = [] →
      (getRadialLayoutElements fsm).nodes = [] ∧ (getRadialLayoutElements fsm).edges = []) ∧
    (∀ (fsm : FSMData) (s : FSMState), fsm.states = [s] → fsm.transitions = [] →
      findHubId fsm = some s.id ∧ sortedRimNodes fsm = [] ∧
      (getRadialLayoutElements fsm).nodes =
        [{ id := s.id, label := s.label, description := s.description,
           isInitial := some (s.type == some NodeType.INITIAL), x := 0, y := 0 }] ∧
      (getRadialLayoutElements fsm).edges = []) := by
  constructor
  · rintro ⟨states, transitions⟩ hs ht
    subst hs
    subst ht
    exact ⟨rfl, rfl⟩
  · rintro ⟨states, transitions⟩ s hs ht
    subst hs
    subst ht
    have hhub : findHubId ⟨[s], []⟩ = some s.id := by
      rw [findHubId]
      dsimp only
      cases hvocab : hubVocab.contains (jsToUpper s.label) with
      | true =>
        rw [List.find?_cons, hvocab]
        simp only [Option.map_some']
        by_cases hid : s.id = ""
        · have h1 : jsTruthy (some s.id) = false := by simp [jsTruthy, hid]
          rw [h1]
          rfl
        · have h1 : jsTruthy (some s.id) = true := by simp [jsTruthy, hid]
          rw [h1]
          rfl
      | false =>
        rw [List.find?_cons, hvocab]
        rfl
    have hrim : rimNodesOf ⟨[s], []⟩ (findHubId ⟨[s], []⟩) = [] := by
      rw [hhub, rimNodesOf]
      simp
    have hsorted : sortedRimNodes ⟨[s], []⟩ = [] := by
      rw [sortedRimNodes, sortedRimNodesOpt, hrim]
      rfl
    refine ⟨hhub, hsorted, ?_, rfl⟩
    show layoutedNodes ⟨[s], []⟩ (findHubId ⟨[s], []⟩)
        ((sortedRimNodesOpt ⟨[s], []⟩ (findHubId ⟨[s], []⟩)).getD []) = _
    have hopt : (sortedRimNodesOpt ⟨[s], []⟩ (findHubId ⟨[s], []⟩)).getD [] = [] := by
      rw [sortedRimNodesOpt, hrim]
      rfl
    rw [hopt, layoutedNodes, hubNode?, hhub]
    simp [rimPlaced]

/-- Witness for C8: the empty graph and Scenario D (single state, no
transitions). -/
theorem degenerate_input_witness :
    (sampleEmpty.states = [] ∧ sampleEmpty.transitions = [] ∧
      (getRadialLayoutElements sampleEmpty).nodes = [] ∧
      (getRadialLayoutElements sampleEmpty).edges = []) ∧
    (sampleSingle.states = [⟨"s", "FOO", none, none⟩] ∧ sampleSingle.transitions = [] ∧
      (findHubId sampleSingle = some "s" ∧ sortedRimNodes sampleSingle = [] ∧
        (getRadialLayoutElements sampleSingle).nodes =
          [{ id := "s", label := "FOO", description := none,
             isInitial := some false, x := 0, y := 0 }] ∧
        (getRadialLayoutElements sampleSingle).edges = [])) := by
  constructor
  · refine ⟨rfl, rfl, ?_, ?_⟩
    · exact (degenerate_input_spec.1 sampleEmpty rfl rfl).1
    · exact (degenerate_input_spec.1 sampleEmpty rfl rfl).2
  · refine ⟨rfl, rfl, ?_⟩
    exact degenerate_input_spec.2 sampleSingle ⟨"s", "FOO", none, none⟩ rfl rfl

/-! ## C3: radial placement -/

theorem rimPlaced_length (rim : List FSMState) : (rimPlaced rim).length = rim.length := by
  simp [rimPlaced]

theorem dist2_circle (θ : ℝ) :
    dist2 (RADIUS * Real.cos θ, RADIUS * Real.sin θ) (0, 0) = RADIUS := by
  rw [dist2]
  have h : (RADIUS * Real.cos θ - 0) * (RADIUS * Real.cos θ - 0) +
      (RADIUS * Real.sin θ - 0) * (RADIUS * Real.sin θ - 0) =
      RADIUS ^ 2 * (Real.cos θ ^ 2 + Real.sin θ ^ 2) := by ring
  rw [h, Real.cos_sq_add_sin_sq, mul_one, Real.sqrt_sq]
  rw [RADIUS]
  norm_num

theorem rimPlaced_getD (rim : List FSMState) (i : ℕ)
    (hi : i < (rimPlaced rim).length) :
    (rimPlaced rim).getD i default =
      { id := (rim.getD i default).id
        label := (rim.getD i default).label
        description := (rim.getD i default).description
        isInitial := none
        x := RADIUS * Real.cos (rimAngleOf i rim.length)
        y := RADIUS * Real.sin (rimAngleOf i rim.length) } := by
  have hi2 : i < rim.length := by rwa [rimPlaced_length] at hi
  rw [getD_eq_get _ _ _ hi, getD_eq_get _ _ _ hi2]
  simp only [rimPlaced, List.get_eq_getElem, List.getElem_map, List.getElem_enum]

/-- C3.  The hub is placed exactly at the origin; the rim node at
ring-index `i` of `n` rim nodes is placed at angle `2π·i/n − π/2` with
position `(R·cos θ, R·sin θ)` for `R = 380`; consequently every rim node
lies at distance `R` from the origin, and ring-adjacent angles (including
the wraparound step) differ by exactly `2π/n`. -/
theorem radial_position_spec (fsm : FSMData) :
    ((getRadialLayoutElements fsm).nodes =
      (hubNode? fsm (findHubId fsm)).toList ++ rimPlaced (sortedRimNodes fsm)) ∧
    (∀ hn, hubNode? fsm (findHubId fsm) = some hn → hn.x = 0 ∧ hn.y = 0) ∧
    (∀ i, i < (rimPlaced (sortedRimNodes fsm)).length →
      ((rimPlaced (sortedRimNodes fsm)).getD i default).x =
        RADIUS * Real.cos (rimAngleOf i (sortedRimNodes fsm).length) ∧
      ((rimPlaced (sortedRimNodes fsm)).getD i default).y =
        RADIUS * Real.sin (rimAngleOf i (sortedRimNodes fsm).length) ∧
      dist2 (((rimPlaced (sortedRimNodes fsm)).getD i default).x,
        ((rimPlaced (sortedRimNodes fsm)).getD i default).y) (0, 0) = RADIUS) ∧
    (∀ i n : ℕ, i + 1 < n →
      rimAngleOf (i + 1) n - rimAngleOf i n = 2 * Real.pi / n) ∧
    (∀ n : ℕ, 1 ≤ n →
      rimAngleOf 0 n + 2 * Real.pi - rimAngleOf (n - 1) n = 2 * Real.pi / n) := by
  refine ⟨rfl, ?_, ?_, ?_, ?_⟩
  · intro hn h
    rw [hubNode?, Option.map_eq_some'] at h
    obtain ⟨s, -, rfl⟩ := h
    exact ⟨rfl, rfl⟩
  · intro i hi
    rw [rimPlaced_getD (sortedRimNodes fsm) i hi]
    exact ⟨rfl, rfl, dist2_circle _⟩
  · intro i n h
    have hn : (n : ℝ) ≠ 0 := Nat.cast_ne_zero.mpr (by omega)
    rw [rimAngleOf, rimAngleOf]
    push_cast
    field_simp
    ring
  · intro n h
    have hn : (n : ℝ) ≠ 0 := Nat.cast_ne_zero.mpr (by omega)
    rw [rimAngleOf, rimAngleOf, Nat.cast_sub h]
    push_cast
    field_simp
    ring

/-- Witness for C3 at Scenario A (two rim nodes). -/
theorem radial_position_witness :
    (hubNode? sampleA (findHubId sampleA) =
      some { id := "i", label := "idle", description := none, isInitial := some false,
             x := 0, y := 0 } ∧
      ({ id := "i", label := "idle", description := none, isInitial := some false,
         x := 0, y := 0 } : LNode).x = 0 ∧
      ({ id := "i", label := "idle", description := none, isInitial := some false,
         x := 0, y := 0 } : LNode).y = 0) ∧
    (0 < (rimPlaced (sortedRimNodes sampleA)).length ∧
      ((rimPlaced (sortedRimNodes sampleA)).getD 0 default).x =
        RADIUS * Real.cos (rimAngleOf 0 (sortedRimNodes sampleA).length) ∧
      ((rimPlaced (sortedRimNodes sampleA)).getD 0 default).y =
        RADIUS * Real.sin (rimAngleOf 0 (sortedRimNodes sampleA).length) ∧
      dist2 (((rimPlaced (sortedRimNodes sampleA)).getD 0 default).x,
        ((rimPlaced (sortedRimNodes sampleA)).getD 0 default).y) (0, 0) = RADIUS) ∧
    ((0 : ℕ) + 1 < 2 ∧
      rimAngleOf (0 + 1) 2 - rimAngleOf 0 2 = 2 * Real.pi / 2) ∧
    ((1 : ℕ) ≤ 2 ∧
      rimAngleOf 0 2 + 2 * Real.pi - rimAngleOf (2 - 1) 2 = 2 * Real.pi / 2) := by
  refine ⟨⟨rfl, (radial_position_spec sampleA).2.1 _ rfl⟩, ⟨by decide, ?_⟩,
    ⟨by decide, (radial_position_spec sampleA).2.2.2.1 0 2 (by decide)⟩,
    ⟨by decide, (radial_position_spec sampleA).2.2.2.2 2 (by decide)⟩⟩
  exact (radial_position_spec sampleA).2.2.1 0 (by decide)

/-! ## C5: self-loops -/

theorem edges_length (fsm : FSMData) :
    (getRadialLayoutElements fsm).edges.length = fsm.transitions.length := by
  simp [getRadialLayoutElements]

theorem edgeAt_eq (fsm : FSMData) (i : ℕ) (hi : i < fsm.transitions.length) :
    edgeAt fsm i = mkRadialEdge (findHubId fsm) (sortedRimNodes fsm)
      (layoutedNodes fsm (findHubId fsm) (sortedRimNodes fsm))
      (buildEdgeMaps fsm.transitions).1 (buildEdgeMaps fsm.transitions).2
      i (transAt fsm i) := by
  have he : i < (getRadialLayoutElements fsm).edges.length := by rwa [edges_length]
  rw [edgeAt, transAt, getD_eq_get _ _ _ he, getD_eq_get _ _ _ hi]
  simp only [getRadialLayoutElements, List.get_eq_getElem, List.getElem_map,
    List.getElem_enum]
  rfl

theorem normalize_unit (x y : ℝ) (h : ¬(x = 0 ∧ y = 0)) :
    (normalize x y).1 * (normalize x y).1 + (normalize x y).2 * (normalize x y).2 = 1 := by
  have hpos : 0 < x * x + y * y := by
    rcases not_and_or.mp h with hx | hy
    · have : 0 < x * x := mul_self_pos.mpr hx
      nlinarith [mul_self_nonneg y]
    · have : 0 < y * y := mul_self_pos.mpr hy
      nlinarith [mul_self_nonneg x]
  have hlen : Real.sqrt (x * x + y * y) ≠ 0 := (Real.sqrt_pos.mpr hpos).ne'
  have hsq : Real.sqrt (x * x + y * y) ^ 2 = x * x + y * y := Real.sq_sqrt hpos.le
  rw [normalize]
  simp only [hlen, if_false]
  field_simp

/-- C5 (amended).  Every transition with `source == target` produces an
edge flagged `isSelfLoop = true`; and for every node center other than
the origin, the two endpoints of the `RadialEdge` self-loop path lie on
that node's rim boundary (distance `NODE_RADIUS` from the center), their
midpoint anchored in the direction away from the origin — the hub's
position.  (At center `(0,0)` — the hub itself — `normalize` collapses
and the endpoints sit at the center instead.) -/
theorem selfLoop_spec :
    (∀ (fsm : FSMData) (i : ℕ), i < fsm.transitions.length →
      (transAt fsm i).source = (transAt fsm i).target →
      (edgeAt fsm i).isSelfLoop = true) ∧
    (∀ (sx sy : ℝ) (si : ℕ), ¬(sx = 0 ∧ sy = 0) →
      dist2 (selfLoopGeometry sx sy si).start (sx, sy) = NODE_RADIUS ∧
      dist2 (selfLoopGeometry sx sy si).stop (sx, sy) = NODE_RADIUS ∧
      ((selfLoopGeometry sx sy si).start.1 + (selfLoopGeometry sx sy si).stop.1) / 2 =
        sx + NODE_RADIUS * Real.cos 0.6 * (normalize sx sy).1 ∧
      ((selfLoopGeometry sx sy si).start.2 + (selfLoopGeometry sx sy si).stop.2) / 2 =
        sy + NODE_RADIUS * Real.cos 0.6 * (normalize sx sy).2) := by
  constructor
  · intro fsm i hi h
    rw [edgeAt_eq fsm i hi]
    simp [mkRadialEdge, h]
  · intro sx sy si h
    have hU := normalize_unit sx sy h
    have hCS : Real.cos 0.6 ^ 2 + Real.sin 0.6 ^ 2 = 1 := Real.cos_sq_add_sin_sq 0.6
    have hR : (0 : ℝ) ≤ NODE_RADIUS := by rw [NODE_RADIUS]; norm_num
    refine ⟨?_, ?_, ?_, ?_⟩
    · rw [dist2]
      simp only [selfLoopGeometry]
      have key : (sx + ((normalize sx sy).1 * Real.cos 0.6 +
            (normalize sx sy).2 * Real.sin 0.6) * NODE_RADIUS - sx) *
          (sx + ((normalize sx sy).1 * Real.cos 0.6 +
            (normalize sx sy).2 * Real.sin 0.6) * NODE_RADIUS - sx) +
          (sy + (-(normalize sx sy).1 * Real.sin 0.6 +
            (normalize sx sy).2 * Real.cos 0.6) * NODE_RADIUS - sy) *
          (sy + (-(normalize sx sy).1 * Real.sin 0.6 +
            (normalize sx sy).2 * Real.cos 0.6) * NODE_RADIUS - sy) =
          NODE_RADIUS ^ 2 := by
        have expand : (sx + ((normalize sx sy).1 * Real.cos 0.6 +
              (normalize sx sy).2 * Real.sin 0.6) * NODE_RADIUS - sx) *
            (sx + ((normalize sx sy).1 * Real.cos 0.6 +
              (normalize sx sy).2 * Real.sin 0.6) * NODE_RADIUS - sx) +
            (sy + (-(normalize sx sy).1 * Real.sin 0.6 +
              (normalize sx sy).2 * Real.cos 0.6) * NODE_RADIUS - sy) *
            (sy + (-(normalize sx sy).1 * Real.sin 0.6 +
              (normalize sx sy).2 * Real.cos 0.6) * NODE_RADIUS - sy) =
            NODE_RADIUS ^ 2 * (((normalize sx sy).1 * (normalize sx sy).1 +
              (normalize sx sy).2 * (normalize sx sy).2) *
              (Real.cos 0.6 ^ 2 + Real.sin 0.6 ^ 2)) := by ring
        rw [expand, hU, hCS]
        ring
      rw [key, Real.sqrt_sq hR]
    · rw [dist2]
      simp only [selfLoopGeometry]
      have key : (sx + ((normalize sx sy).1 * Real.cos 0.6 -
            (normalize sx sy).2 * Real.sin 0.6) * NODE_RADIUS - sx) *
          (sx + ((normalize sx sy).1 * Real.cos 0.6 -
            (normalize sx sy).2 * Real.sin 0.6) * NODE_RADIUS - sx) +
          (sy + ((normalize sx sy).1 * Real.sin 0.6 +
            (normalize sx sy).2 * Real.cos 0.6) * NODE_RADIUS - sy) *
          (sy + ((normalize sx sy).1 * Real.sin 0.6 +
            (normalize sx sy).2 * Real.cos 0.6) * NODE_RADIUS - sy) =
          NODE_RADIUS ^ 2 := by
        have expand : (sx + ((normalize sx sy).1 * Real.cos 0.6 -
              (normalize sx sy).2 * Real.sin 0.6) * NODE_RADIUS - sx) *
            (sx + ((normalize sx sy).1 * Real.cos 0.6 -
              (normalize sx sy).2 * Real.sin 0.6) * NODE_RADIUS - sx) +
            (sy + ((normalize sx sy).1 * Real.sin 0.6 +
              (normalize sx sy).2 * Real.cos 0.6) * NODE_RADIUS - sy) *
            (sy + ((normalize sx sy).1 * Real.sin 0.6 +
              (normalize sx sy).2 * Real.cos 0.6) * NODE_RADIUS - sy) =
            NODE_RADIUS ^ 2 * (((normalize sx sy).1 * (normalize sx sy).1 +
              (normalize sx sy).2 * (normalize sx sy).2) *
              (Real.cos 0.6 ^ 2 + Real.sin 0.6 ^ 2)) := by ring
        rw [expand, hU, hCS]
        ring
      rw [key, Real.sqrt_sq hR]
    · simp only [selfLoopGeometry]
      ring
    · simp only [selfLoopGeometry]
      ring

/-- C5 counterexample.  In `sampleHubLoop` the single state is the hub,
placed at the origin with a self-loop edge; at source coordinates
`(0, 0)` the self-loop path's endpoints coincide with the node center
(distance `0`), not with the rim boundary (distance `NODE_RADIUS`). -/
theorem selfLoop_hub_counterexample :
    (getRadialLayoutElements sampleHubLoop).nodes =
      [{ id := "s", label := "IDLE", description := none, isInitial := some false,
         x := 0, y := 0 }] ∧
    ((getRadialLayoutElements sampleHubLoop).edges.map fun e => e.isSelfLoop) = [true] ∧
    (selfLoopGeometry 0 0 0).start = (0, 0) ∧
    (selfLoopGeometry 0 0 0).stop = (0, 0) ∧
    dist2 (selfLoopGeometry 0 0 0).start (0, 0) = 0 ∧
    (0 : ℝ) ≠ NODE_RADIUS := by
  have hn : normalize (0 : ℝ) 0 = (0, 0) := by simp [normalize]
  have hstart : (selfLoopGeometry 0 0 0).start = ((0 : ℝ), (0 : ℝ)) := by
    simp [selfLoopGeometry, hn]
  have hstop : (selfLoopGeometry 0 0 0).stop = ((0 : ℝ), (0 : ℝ)) := by
    simp [selfLoopGeometry, hn]
  refine ⟨rfl, by decide, hstart, hstop, ?_, ?_⟩
  · rw [hstart, dist2]
    simp
  · rw [NODE_RADIUS]
    norm_num

/-- Witness for C5: the classification at `sampleHubLoop` and the rim
anchoring at the concrete non-origin center `(380, 0)`. -/
theorem selfLoop_witness :
    (0 < sampleHubLoop.transitions.length ∧
      (transAt sampleHubLoop 0).source = (transAt sampleHubLoop 0).target ∧
      (edgeAt sampleHubLoop 0).isSelfLoop = true) ∧
    (¬((380 : ℝ) = 0 ∧ (0 : ℝ) = 0) ∧
      (dist2 (selfLoopGeometry 380 0 0).start (380, 0) = NODE_RADIUS ∧
        dist2 (selfLoopGeometry 380 0 0).stop (380, 0) = NODE_RADIUS ∧
        ((selfLoopGeometry 380 0 0).start.1 + (selfLoopGeometry 380 0 0).stop.1) / 2 =
          380 + NODE_RADIUS * Real.cos 0.6 * (normalize 380 0).1 ∧
        ((selfLoopGeometry 380 0 0).start.2 + (selfLoopGeometry 380 0 0).stop.2) / 2 =
          0 + NODE_RADIUS * Real.cos 0.6 * (normalize 380 0).2)) :=
  ⟨⟨by decide, by decide, selfLoop_spec.1 sampleHubLoop 0 (by decide) (by decide)⟩,
   ⟨by simp, selfLoop_spec.2 380 0 0 (by simp)⟩⟩

/-! ## C9: edge classification flags -/

/-- C9.  For every transition: `isHubConnection` is true exactly when the
source or target is the hub id; self-loops and hub connections always
carry `isNeighbor = false`; and for a rim-to-rim transition whose two
endpoints occur in the ring order at indices `si`, `ti` of `n` rim nodes,
`isNeighbor` is true exactly when the indices differ by `1` or by
`n − 1` (ring adjacency including wraparound). -/
theorem neighbor_flag_spec (fsm : FSMData) (i : ℕ) (hi : i < fsm.transitions.length) :
    ((edgeAt fsm i).isHubConnection = true ↔
      (some (transAt fsm i).source = findHubId fsm ∨
       some (transAt fsm i).target = findHubId fsm)) ∧
    (((transAt fsm i).source = (transAt fsm i).target ∨
        (edgeAt fsm i).isHubConnection = true) →
      (edgeAt fsm i).isNeighbor = false) ∧
    (∀ si ti : ℕ,
      (transAt fsm i).source ≠ (transAt fsm i).target →
      (edgeAt fsm i).isHubConnection = false →
      (sortedRimNodes fsm).findIdx? (fun n => n.id == (transAt fsm i).source) = some si →
      (sortedRimNodes fsm).findIdx? (fun n => n.id == (transAt fsm i).target) = some ti →
      ((edgeAt fsm i).isNeighbor = true ↔
        (((si : ℤ) - (ti : ℤ)).natAbs = 1 ∨
         ((si : ℤ) - (ti : ℤ)).natAbs = (sortedRimNodes fsm).length - 1))) := by
  rw [edgeAt_eq fsm i hi]
  refine ⟨?_, ?_, ?_⟩
  · simp only [mkRadialEdge, Bool.or_eq_true, beq_iff_eq]
  · intro h
    rcases h with h | h
    · simp only [mkRadialEdge]
      have hself : ((transAt fsm i).source == (transAt fsm i).target) = true := by
        simp [h]
      rw [hself]
      simp
    · simp only [mkRadialEdge, Bool.or_eq_true, beq_iff_eq] at h
      simp only [mkRadialEdge]
      have hhub : (some (transAt fsm i).source == findHubId fsm ||
          some (transAt fsm i).target == findHubId fsm) = true := by
        rcases h with h | h <;> simp [h]
      rw [hhub]
      simp
  · intro si ti hne hhub hsi hti
    simp only [mkRadialEdge, Bool.or_eq_true, beq_iff_eq] at hhub ⊢
    have hhub2 : (some (transAt fsm i).source == findHubId fsm ||
        some (transAt fsm i).target == findHubId fsm) = false := hhub
    have hself : ((transAt fsm i).source == (transAt fsm i).target) = false := by
      simp [hne]
    rw [hhub2, hself, hsi, hti]
    simp

/-- Witness for C9 at `sampleRing`, transition 5 (`d → a`, the ring
wraparound pair; indices 3 and 0 of 4 rim nodes). -/
theorem neighbor_flag_witness :
    5 < sampleRing.transitions.length ∧
    (((edgeAt sampleRing 5).isHubConnection = true ↔
        (some (transAt sampleRing 5).source = findHubId sampleRing ∨
         some (transAt sampleRing 5).target = findHubId sampleRing)) ∧
      (((transAt sampleRing 5).source = (transAt sampleRing 5).target ∨
          (edgeAt sampleRing 5).isHubConnection = true) →
        (edgeAt sampleRing 5).isNeighbor = false) ∧
      (∀ si ti : ℕ,
        (transAt sampleRing 5).source ≠ (transAt sampleRing 5).target →
        (edgeAt sampleRing 5).isHubConnection = false →
        (sortedRimNodes sampleRing).findIdx?
          (fun n => n.id == (transAt sampleRing 5).source) = some si →
        (sortedRimNodes sampleRing).findIdx?
          (fun n => n.id == (transAt sampleRing 5).target) = some ti →
        ((edgeAt sampleRing 5).isNeighbor = true ↔
          (((si : ℤ) - (ti : ℤ)).natAbs = 1 ∨
           ((si : ℤ) - (ti : ℤ)).natAbs = (sortedRimNodes sampleRing).length - 1)))) ∧
    ((edgeAt sampleRing 5).isNeighbor = true ↔
      (((3 : ℤ) - (0 : ℤ)).natAbs = 1 ∨
       ((3 : ℤ) - (0 : ℤ)).natAbs = (sortedRimNodes sampleRing).length - 1)) :=
  ⟨by decide, neighbor_flag_spec sampleRing 5 (by decide),
   (neighbor_flag_spec sampleRing 5 (by decide)).2.2 3 0 (by decide) (by decide)
     (by decide) (by decide)⟩

/-! ## C7: sibling ranks and curvature offsets -/

theorem buildMaps_fst_aux (ts : List FSMTransition) :
    ∀ (n : ℕ) (g : String → ℕ) (f : ℕ → ℕ) (k : String),
      (((ts.enumFrom n).foldl mapsStep (g, f)).1) k =
        g k + (ts.filter fun t => edgeKey t == k).length := by
  induction ts with
  | nil =>
    intro n g f k
    simp
  | cons t ts ih =>
    intro n g f k
    rw [List.enumFrom_cons, List.foldl_cons, List.filter_cons]
    cases hk : (edgeKey t == k) with
    | true =>
      rw [ih]
      obtain rfl : edgeKey t = k := by simpa using hk
      simp only [mapsStep, beq_self_eq_true, if_true, List.length_cons]
      omega
    | false =>
      rw [ih]
      simp only [mapsStep]
      rw [if_neg (by simpa using (by simpa using hk : edgeKey t ≠ k).symm)]
      simp

theorem buildMaps_snd_lt (ts : List FSMTransition) :
    ∀ (n : ℕ) (g : String → ℕ) (f : ℕ → ℕ) (j : ℕ), j < n →
      (((ts.enumFrom n).foldl mapsStep (g, f)).2) j = f j := by
  induction ts with
  | nil =>
    intro n g f j hj
    simp
  | cons t ts ih =>
    intro n g f j hj
    rw [List.enumFrom_cons, List.foldl_cons]
    rw [ih (n + 1) _ _ j (by omega)]
    simp only [mapsStep]
    rw [if_neg (by simpa using Nat.ne_of_lt hj)]

theorem buildMaps_snd_aux (ts : List FSMTransition) :
    ∀ (n : ℕ) (g : String → ℕ) (f : ℕ → ℕ) (i : ℕ) (t : FSMTransition),
      ts.get? i = some t →
      (((ts.enumFrom n).foldl mapsStep (g, f)).2) (n + i) =
        g (edgeKey t) + ((ts.take i).filter fun u => edgeKey u == edgeKey t).length := by
  induction ts with
  | nil =>
    intro n g f i t ht
    simp at ht
  | cons u us ih =>
    intro n g f i t ht
    rw [List.enumFrom_cons, List.foldl_cons]
    cases i with
    | zero =>
      obtain rfl : u = t := by
        rw [List.get?_cons_zero] at ht
        injection ht
      rw [buildMaps_snd_lt us (n + 1) _ _ (n + 0) (by omega)]
      simp only [mapsStep]
      rw [if_pos (by simp)]
      simp
    | succ i =>
      rw [List.get?_cons_succ] at ht
      have hstep := ih (n + 1) (mapsStep (g, f) (n, u)).1 (mapsStep (g, f) (n, u)).2 i t ht
      have harg : n + (i + 1) = (n + 1) + i := by omega
      rw [harg]
      rw [hstep]
      simp only [mapsStep, List.take_succ_cons, List.filter_cons]
      by_cases hk : edgeKey u = edgeKey t
      · rw [if_pos (by simp [hk]), hk]
        rw [if_pos (by simp)]
        simp only [List.length_cons]
        omega
      · rw [if_neg (by simpa using fun h : edgeKey t = edgeKey u => hk h.symm),
          if_neg (by simpa using hk)]

theorem buildEdgeMaps_fst (ts : List FSMTransition) (k : String) :
    (buildEdgeMaps ts).1 k = (ts.filter fun t => edgeKey t == k).length := by
  rw [buildEdgeMaps, List.enum_eq_enumFrom, buildMaps_fst_aux]
  simp

theorem buildEdgeMaps_snd (ts : List FSMTransition) (i : ℕ) (t : FSMTransition)
    (ht : ts.get? i = some t) :
    (buildEdgeMaps ts).2 i = ((ts.take i).filter fun u => edgeKey u == edgeKey t).length := by
  rw [buildEdgeMaps, List.enum_eq_enumFrom]
  have := buildMaps_snd_aux ts 0 (fun _ => 0) (fun _ => 0) i t ht
  simpa using this

theorem filter_enum_counts (p : α → Bool) : ∀ l : List α,
    ((l.enum.filter fun q => p q.2).map fun q => ((l.take q.1).filter p).length) =
      List.range ((l.filter p).length) := by
  intro l
  induction l with
  | nil => simp
  | cons x xs ih =>
    rw [List.enum_cons', List.filter_cons]
    have hpred : (xs.enum.map (Prod.map (· + 1) id)).filter (fun q => p q.2) =
        (xs.enum.filter fun q => p q.2).map (Prod.map (· + 1) id) := by
      rw [List.filter_map]
      have : ((fun q : ℕ × α => p q.2) ∘ Prod.map (· + 1) id) =
          fun q : ℕ × α => p q.2 := by
        funext q
        simp
      rw [this]
    cases hp : p x with
    | true =>
      simp only [if_true]
      rw [List.map_cons, hpred, List.map_map]
      have hfun : ∀ q ∈ (xs.enum.filter fun q => p q.2),
          ((fun q : ℕ × α => (((x :: xs).take q.1).filter p).length) ∘
            Prod.map (· + 1) id) q = ((xs.take q.1).filter p).length + 1 := by
        intro q hq
        simp only [Function.comp_apply, Prod.map_fst, id_eq, List.take_succ_cons,
          List.filter_cons, hp, if_true, List.length_cons]
      rw [List.map_congr_left hfun]
      have hshift : (xs.enum.filter fun q => p q.2).map
            (fun q => ((xs.take q.1).filter p).length + 1) =
          ((xs.enum.filter fun q => p q.2).map
            fun q => ((xs.take q.1).filter p).length).map (· + 1) := by
        rw [List.map_map]
        rfl
      rw [hshift, ih, List.filter_cons, hp]
      simp only [if_true, List.length_cons]
      rw [List.range_succ_eq_map]
      have : (List.range ((xs.filter p).length)).map Nat.succ =
          (List.range ((xs.filter p).length)).map (· + 1) := by
        apply List.map_congr_left
        intro a _
        omega
      rw [this]
      rfl
    | false =>
      simp only [Bool.false_eq_true, if_false]
      rw [hpred, List.map_map]
      have hfun : ∀ q ∈ (xs.enum.filter fun q => p q.2),
          ((fun q : ℕ × α => (((x :: xs).take q.1).filter p).length) ∘
            Prod.map (· + 1) id) q = ((xs.take q.1).filter p).length := by
        intro q hq
        simp only [Function.comp_apply, Prod.map_fst, id_eq, List.take_succ_cons,
          List.filter_cons, hp, Bool.false_eq_true, if_false]
      rw [List.map_congr_left hfun, ih, List.filter_cons, hp]
      simp

theorem key_eq_pair_pointwise (ts : List FSMTransition)
    (hkey : ∀ t1 ∈ ts, ∀ t2 ∈ ts,
      (edgeKey t1 = edgeKey t2 ↔ (t1.source = t2.source ∧ t1.target = t2.target)))
    (t : FSMTransition) (ht : t ∈ ts) (u : FSMTransition) (hu : u ∈ ts) :
    (edgeKey u == edgeKey t) = samePair u t := by
  rw [samePair]
  by_cases h : edgeKey u = edgeKey t
  · obtain ⟨h1, h2⟩ := (hkey u hu t ht).mp h
    simp [h, h1, h2]
  · have hnp : ¬(u.source = t.source ∧ u.target = t.target) := fun hc =>
      h ((hkey u hu t ht).mpr hc)
    have h1 : (edgeKey u == edgeKey t) = false := by simpa using h
    have h2 : (u.source == t.source && u.target == t.target) = false := by
      rcases not_and_or.mp hnp with hh | hh
      · have hf : (u.source == t.source) = false := by simpa using hh
        simp [hf]
      · have hf : (u.target == t.target) = false := by simpa using hh
        simp [hf]
    rw [h1, h2]

theorem offsets_sum_zero (k : ℕ) (s : ℝ) :
    ∑ j ∈ Finset.range k, getMultiEdgeCurvatureOffset j k s = 0 := by
  by_cases hk : k ≤ 1
  · have hterm : ∀ j ∈ Finset.range k, getMultiEdgeCurvatureOffset j k s = 0 := by
      intro j hj
      rw [getMultiEdgeCurvatureOffset, if_pos hk]
    rw [Finset.sum_congr rfl hterm]
    simp
  · have hterm : ∀ j ∈ Finset.range k, getMultiEdgeCurvatureOffset j k s =
        ((j : ℝ) - ((k : ℝ) - 1) / 2) * s := by
      intro j hj
      rw [getMultiEdgeCurvatureOffset, if_neg hk]
    rw [Finset.sum_congr rfl hterm, ← Finset.sum_mul]
    have hk1 : 1 ≤ k := by omega
    have hgauss : (∑ j ∈ Finset.range k, (j : ℝ)) = (k : ℝ) * ((k : ℝ) - 1) / 2 := by
      have hnat := Finset.sum_range_id_mul_two k
      have hcast := congrArg (fun n : ℕ => (n : ℝ)) hnat
      push_cast [Nat.cast_sub hk1] at hcast
      linarith
    have hzero : (∑ j ∈ Finset.range k, ((j : ℝ) - ((k : ℝ) - 1) / 2)) = 0 := by
      rw [Finset.sum_sub_distrib, hgauss, Finset.sum_const, Finset.card_range]
      field_simp
    rw [hzero, zero_mul]

/-- C7 (amended).  When the concatenated grouping key separates distinct
(source, target) pairs (in particular whenever no state id contains the
separator `->`), every edge in a group of `k` same-pair transitions
carries `siblingCount = k`, the `siblingIndex` of an edge is the number
of earlier same-pair transitions, the group's indices are exactly
`0..k-1` in input order, and the signed curvature offsets over a group of
`k` sum to zero (`-spacing, 0, +spacing` for `k = 3`; `0` for `k ≤ 1`). -/
theorem sibling_spec (fsm : FSMData)
    (hkey : ∀ t1 ∈ fsm.transitions, ∀ t2 ∈ fsm.transitions,
      (edgeKey t1 = edgeKey t2 ↔ (t1.source = t2.source ∧ t1.target = t2.target))) :
    (∀ i, i < fsm.transitions.length →
      (edgeAt fsm i).siblingCount =
        (fsm.transitions.filter fun u => samePair u (transAt fsm i)).length ∧
      (edgeAt fsm i).siblingIndex =
        ((fsm.transitions.take i).filter fun u => samePair u (transAt fsm i)).length) ∧
    (∀ i, i < fsm.transitions.length →
      (siblingPositions fsm.transitions (transAt fsm i)).map
          (buildEdgeMaps fsm.transitions).2 =
        List.range ((fsm.transitions.filter fun u => samePair u (transAt fsm i)).length)) ∧
    (∀ (k : ℕ) (s : ℝ), ∑ j ∈ Finset.range k, getMultiEdgeCurvatureOffset j k s = 0) ∧
    (∀ s : ℝ, getMultiEdgeCurvatureOffset 0 3 s = -s ∧
      getMultiEdgeCurvatureOffset 1 3 s = 0 ∧ getMultiEdgeCurvatureOffset 2 3 s = s) ∧
    (∀ (j k : ℕ) (s : ℝ), k ≤ 1 → getMultiEdgeCurvatureOffset j k s = 0) := by
  have htrans : ∀ i, i < fsm.transitions.length → transAt fsm i ∈ fsm.transitions := by
    intro i hi
    rw [transAt, getD_eq_get _ _ _ hi]
    exact List.get_mem fsm.transitions i hi
  have hkeyfilter : ∀ i, i < fsm.transitions.length → ∀ l : List FSMTransition,
      (∀ u ∈ l, u ∈ fsm.transitions) →
      (l.filter fun u => edgeKey u == edgeKey (transAt fsm i)) =
        l.filter fun u => samePair u (transAt fsm i) := by
    intro i hi l hl
    exact List.filter_congr fun u hu =>
      key_eq_pair_pointwise fsm.transitions hkey (transAt fsm i) (htrans i hi) u (hl u hu)
  refine ⟨?_, ?_, offsets_sum_zero, ?_, ?_⟩
  · intro i hi
    have hget : fsm.transitions.get? i = some (transAt fsm i) := by
      rw [transAt, getD_eq_get _ _ _ hi]
      exact List.get?_eq_get hi
    have hcount : (buildEdgeMaps fsm.transitions).1 (edgeKey (transAt fsm i)) =
        (fsm.transitions.filter fun u => samePair u (transAt fsm i)).length := by
      rw [buildEdgeMaps_fst]
      rw [hkeyfilter i hi fsm.transitions fun u hu => hu]
    have hpos : (buildEdgeMaps fsm.transitions).1 (edgeKey (transAt fsm i)) ≠ 0 := by
      rw [buildEdgeMaps_fst]
      have : transAt fsm i ∈ fsm.transitions.filter
          fun u => edgeKey u == edgeKey (transAt fsm i) :=
        List.mem_filter.mpr ⟨htrans i hi, by simp⟩
      intro hzero
      rw [List.length_eq_zero] at hzero
      rw [hzero] at this
      exact List.not_mem_nil _ this
    constructor
    · rw [edgeAt_eq fsm i hi]
      simp only [mkRadialEdge]
      rw [if_neg (by simpa using hpos)]
      exact hcount
    · rw [edgeAt_eq fsm i hi]
      simp only [mkRadialEdge]
      rw [buildEdgeMaps_snd fsm.transitions i (transAt fsm i) hget,
        hkeyfilter i hi (fsm.transitions.take i) fun u hu =>
          List.take_subset i fsm.transitions hu]
  · intro i hi
    rw [siblingPositions, List.map_map]
    have hfun : ∀ q ∈ (fsm.transitions.enum.filter
        fun p => samePair p.2 (transAt fsm i)),
        ((buildEdgeMaps fsm.transitions).2 ∘ Prod.fst) q =
          ((fsm.transitions.take q.1).filter
            fun u => samePair u (transAt fsm i)).length := by
      intro q hq
      rw [List.mem_filter] at hq
      have hq2 : fsm.transitions.get? q.1 = some q.2 := by
        have := hq.1
        rw [List.mem_enum_iff_getElem?] at this
        rwa [List.get?_eq_getElem?]
      have hsame : samePair q.2 (transAt fsm i) = true := hq.2
      have hkq : edgeKey q.2 = edgeKey (transAt fsm i) := by
        rw [samePair, Bool.and_eq_true, beq_iff_eq, beq_iff_eq] at hsame
        exact (hkey q.2 (List.get?_mem hq2) (transAt fsm i) (htrans i hi)).mpr hsame
      rw [Function.comp_apply,
        buildEdgeMaps_snd fsm.transitions q.1 q.2 hq2, hkq,
        hkeyfilter i hi (fsm.transitions.take q.1) fun u hu =>
          List.take_subset q.1 fsm.transitions hu]
    rw [List.map_congr_left hfun]
    exact filter_enum_counts (fun u => samePair u (transAt fsm i)) fsm.transitions
  · intro s
    refine ⟨?_, ?_, ?_⟩ <;>
      · rw [getMultiEdgeCurvatureOffset, if_neg (by omega)]
        push_cast
        ring
  · intro j k s hk
    rw [getMultiEdgeCurvatureOffset, if_pos hk]

/-- C7 counterexample.  In `sampleCollide` the two transitions have
different (source, target) pairs — `("a->b", "c")` and `("a", "b->c")` —
but the same concatenated key `"a->b->c"`, so both produced edges carry
`siblingCount = 2` although each pair group has exactly one member. -/
theorem sibling_key_collision_counterexample :
    ((getRadialLayoutElements sampleCollide).edges.map fun e => e.siblingCount) = [2, 2] ∧
    (sampleCollide.transitions.filter
      fun u => samePair u ⟨"a->b", "c", "c", none⟩).length = 1 ∧
    (sampleCollide.transitions.filter
      fun u => samePair u ⟨"a", "b->c", "c", none⟩).length = 1 := by
  refine ⟨by decide, by decide, by decide⟩

/-- Witness for C7 at Scenario C (three parallel `A → B` transitions;
edge 1 carries `siblingCount = 3`, `siblingIndex = 1`). -/
theorem sibling_witness :
    (∀ t1 ∈ sampleParallel.transitions, ∀ t2 ∈ sampleParallel.transitions,
      (edgeKey t1 = edgeKey t2 ↔ (t1.source = t2.source ∧ t1.target = t2.target))) ∧
    1 < sampleParallel.transitions.length ∧
    ((edgeAt sampleParallel 1).siblingCount =
      (sampleParallel.transitions.filter
        fun u => samePair u (transAt sampleParallel 1)).length ∧
     (edgeAt sampleParallel 1).siblingIndex =
      ((sampleParallel.transitions.take 1).filter
        fun u => samePair u (transAt sampleParallel 1)).length) ∧
    ((siblingPositions sampleParallel.transitions (transAt sampleParallel 1)).map
        (buildEdgeMaps sampleParallel.transitions).2 =
      List.range ((sampleParallel.transitions.filter
        fun u => samePair u (transAt sampleParallel 1)).length)) :=
  ⟨by decide, by decide, (sibling_spec sampleParallel (by decide)).1 1 (by decide),
   (sibling_spec sampleParallel (by decide)).2.1 1 (by decide)⟩

/-! ## C6: the zero-length guard -/

/-- C6 (amended).  `normalize` returns the zero vector exactly on the
zero-length input and a unit vector otherwise; but the perpendicular
normal of the curved general-connection branch is not computed through
`normalize`: its divisor is the plain anchor-segment length, which is
zero when the two anchor points coincide, so the branch does divide by
zero there. -/
theorem normalize_guard_spec :
    (∀ x y : ℝ, x = 0 ∧ y = 0 → normalize x y = (0, 0)) ∧
    (∀ x y : ℝ, ¬(x = 0 ∧ y = 0) →
      (normalize x y).1 ^ 2 + (normalize x y).2 ^ 2 = 1) ∧
    (∀ sx sy tx ty : ℝ,
      (generalAnchors sx sy tx ty).1 = (generalAnchors sx sy tx ty).2 →
      curvedNormalDivisor sx sy tx ty = 0) := by
  refine ⟨?_, ?_, ?_⟩
  · rintro x y ⟨rfl, rfl⟩
    simp [normalize]
  · intro x y h
    have hpos : 0 < x * x + y * y := by
      rcases not_and_or.mp h with hx | hy
      · have : 0 < x * x := mul_self_pos.mpr hx
        nlinarith [mul_self_nonneg y]
      · have : 0 < y * y := mul_self_pos.mpr hy
        nlinarith [mul_self_nonneg x]
    have hlen : Real.sqrt (x * x + y * y) ≠ 0 :=
      (Real.sqrt_pos.mpr hpos).ne'
    have hsq : Real.sqrt (x * x + y * y) ^ 2 = x * x + y * y :=
      Real.sq_sqrt hpos.le
    rw [normalize]
    simp only [hlen, if_false]
    field_simp
    nlinarith [hsq]
  · intro sx sy tx ty h
    rw [curvedNormalDivisor, ← h]
    simp

/-- C6 counterexample.  With coincident node centers the two anchor
points coincide and the curved-branch divisor is zero: the normal
computation is not protected by the `normalize` fallback. -/
theorem normalize_guard_counterexample :
    (generalAnchors 0 0 0 0).1 = (generalAnchors 0 0 0 0).2 ∧
    curvedNormalDivisor 0 0 0 0 = 0 := by
  have hn : normalize (0 : ℝ) 0 = (0, 0) := by simp [normalize]
  have ha : generalAnchors (0 : ℝ) 0 0 0 = ((0, 0), (0, 0)) := by
    simp [generalAnchors, getPointOnCircle, hn]
  refine ⟨by rw [ha], ?_⟩
  rw [curvedNormalDivisor, ha]
  simp

/-- Witness for C6: the zero-input branch and the unit-vector branch at
the concrete input `(3, 4)`. -/
theorem normalize_guard_witness :
    (((0 : ℝ) = 0 ∧ (0 : ℝ) = 0) ∧ normalize 0 0 = (0, 0)) ∧
    (¬((3 : ℝ) = 0 ∧ (4 : ℝ) = 0) ∧
      (normalize 3 4).1 ^ 2 + (normalize 3 4).2 ^ 2 = 1) :=
  ⟨⟨⟨rfl, rfl⟩, normalize_guard_spec.1 0 0 ⟨rfl, rfl⟩⟩,
   ⟨by simp, normalize_guard_spec.2.1 3 4 (by simp)⟩⟩

end VerilogFSM
